import Mathlib

/-!
Verification of the Proxy Pool Manager (proxy_pool/base.py, proxy_pool/pool.py).

The Python code is shallowly embedded: `ProxyInfo` dataclass becomes a Lean
structure, the pool's `_proxies` dict (string key "host:port" → ProxyInfo,
insertion-ordered) becomes an association list, float arithmetic is modelled
over ℚ, and each async method becomes a pure state-transition function.
Randomness in `get_proxy` (Python `random.choices` with weights) is modelled
by its inverse-CDF semantics: an external draw `r ∈ [0, Σ weights)` picks the
index whose cumulative-weight interval contains `r`.
-/

set_option autoImplicit false

/-- Embeds `ProxyProtocol` (enum: HTTP | HTTPS | SOCKS5) from base.py. -/
inductive ProxyProtocol where
  | http
  | https
  | socks5
deriving DecidableEq, Repr

/-- Embeds the `ProxyInfo` dataclass from base.py: identity, credentials and
mutable quality statistics.  Times and the response-time average are ℚ. -/
structure ProxyInfo where
  host : String
  port : Nat
  protocol : ProxyProtocol := ProxyProtocol.http
  username : Option String := none
  password : Option String := none
  success_count : Nat := 0
  fail_count : Nat := 0
  avg_response_time : ℚ := 0
  last_check_time : ℚ
  last_use_time : ℚ := 0
deriving DecidableEq, Repr

/-- Embeds `ProxyInfo.score` from base.py: 0.5 for an untested proxy,
otherwise success-rate weighted 70% plus time score weighted 30%. -/
def ProxyInfo.score (p : ProxyInfo) : ℚ :=
  let total := p.success_count + p.fail_count
  if total = 0 then 1/2
  else
    let success_rate : ℚ := (p.success_count : ℚ) / (total : ℚ)
    let time_score : ℚ := max 0 (1 - p.avg_response_time / 10)
    success_rate * (7/10) + time_score * (3/10)

/-- The success rate used by `score` when at least one sample exists. -/
def ProxyInfo.success_rate (p : ProxyInfo) : ℚ :=
  (p.success_count : ℚ) / ((p.success_count + p.fail_count : Nat) : ℚ)

/-- Embeds `ProxyInfo.is_stale` from base.py (checked against an explicit
current time instead of `time.time()`). -/
def ProxyInfo.is_stale (p : ProxyInfo) (now : ℚ) : Bool :=
  decide (now - p.last_check_time > 600)

/-- C2: `score` is 0.5 with no samples; otherwise `0.7·successRate +
0.3·max(0, 1 − avg/10)`; at 10s or more average latency the time component
vanishes, leaving `0.7·successRate`. -/
theorem score_formula (p : ProxyInfo) :
    (p.success_count + p.fail_count = 0 → p.score = 1/2) ∧
    (p.success_count + p.fail_count ≠ 0 →
      p.score = (7/10) * p.success_rate
        + (3/10) * max 0 (1 - p.avg_response_time / 10)) ∧
    (p.success_count + p.fail_count ≠ 0 → 10 ≤ p.avg_response_time →
      p.score = (7/10) * p.success_rate) := by
  refine ⟨fun h => ?_, fun h => ?_, fun h h10 => ?_⟩
  · simp [ProxyInfo.score, h]
  · simp [ProxyInfo.score, ProxyInfo.success_rate, h]
    ring
  · have hmax : max 0 (1 - p.avg_response_time / 10) = 0 := by
      apply max_eq_left
      have : (1:ℚ) ≤ p.avg_response_time / 10 := by linarith
      linarith
    simp [ProxyInfo.score, ProxyInfo.success_rate, h, hmax]
    ring

/-- Witness for `score_formula` at concrete records. -/
theorem score_formula_witness :
    (({ host := "1.2.3.4", port := 80, last_check_time := 0 } : ProxyInfo).success_count
       + ({ host := "1.2.3.4", port := 80, last_check_time := 0 } : ProxyInfo).fail_count = 0) ∧
    ({ host := "1.2.3.4", port := 80, last_check_time := 0 } : ProxyInfo).score = 1/2 :=
  ⟨rfl, (score_formula { host := "1.2.3.4", port := 80, last_check_time := 0 }).1 rfl⟩

lemma success_rate_nonneg (p : ProxyInfo) : 0 ≤ p.success_rate := by
  unfold ProxyInfo.success_rate
  positivity

lemma success_rate_le_one (p : ProxyInfo) : p.success_rate ≤ 1 := by
  unfold ProxyInfo.success_rate
  rcases Nat.eq_zero_or_pos (p.success_count + p.fail_count) with h | h
  · simp [h]
  · apply div_le_one_of_le₀
    · exact_mod_cast Nat.le_add_right _ _
    · positivity

lemma time_score_nonneg (p : ProxyInfo) :
    0 ≤ max 0 (1 - p.avg_response_time / 10) := le_max_left _ _

lemma time_score_le_one (p : ProxyInfo) (h : 0 ≤ p.avg_response_time) :
    max 0 (1 - p.avg_response_time / 10) ≤ 1 := by
  apply max_le
  · norm_num
  · have : 0 ≤ p.avg_response_time / 10 := by positivity
    linarith

/-- C8: with non-negative statistics the score stays in `[0,1]`; at fixed
latency it is monotone in the success rate (strictly so for a strict rate
increase), and at fixed success rate it is antitone in the latency. -/
theorem score_bounds_monotone (p q : ProxyInfo) :
    (0 ≤ p.avg_response_time → 0 ≤ p.score ∧ p.score ≤ 1) ∧
    (p.success_count + p.fail_count ≠ 0 → q.success_count + q.fail_count ≠ 0 →
      p.avg_response_time = q.avg_response_time →
      p.success_rate ≤ q.success_rate → p.score ≤ q.score) ∧
    (p.success_count + p.fail_count ≠ 0 → q.success_count + q.fail_count ≠ 0 →
      p.avg_response_time = q.avg_response_time →
      p.success_rate < q.success_rate → p.score < q.score) ∧
    (p.success_count + p.fail_count ≠ 0 → q.success_count + q.fail_count ≠ 0 →
      p.success_rate = q.success_rate →
      p.avg_response_time ≤ q.avg_response_time → q.score ≤ p.score) := by
  refine ⟨fun havg => ?_, fun hp hq heq hr => ?_, fun hp hq heq hr => ?_,
    fun hp hq hr havg => ?_⟩
  · rcases Nat.eq_zero_or_pos (p.success_count + p.fail_count) with h | h
    · constructor <;> · rw [(score_formula p).1 h]; norm_num
    · have h0 : p.success_count + p.fail_count ≠ 0 := Nat.pos_iff_ne_zero.mp h
      rw [(score_formula p).2.1 h0]
      have h1 := success_rate_nonneg p
      have h2 := success_rate_le_one p
      have h3 := time_score_nonneg p
      have h4 := time_score_le_one p havg
      constructor <;> nlinarith
  · rw [(score_formula p).2.1 hp, (score_formula q).2.1 hq, heq]
    linarith
  · rw [(score_formula p).2.1 hp, (score_formula q).2.1 hq, heq]
    linarith
  · rw [(score_formula p).2.1 hp, (score_formula q).2.1 hq, hr]
    have hts : max 0 (1 - q.avg_response_time / 10) ≤
        max 0 (1 - p.avg_response_time / 10) := by
      apply max_le (le_max_left _ _)
      apply le_max_of_le_right
      linarith
    linarith

/-- A sample record: 1 success, 2 failures, 2s average latency. -/
def sample_low : ProxyInfo :=
  { host := "h", port := 1, success_count := 1, fail_count := 2,
    avg_response_time := 2, last_check_time := 0 }

/-- A sample record: 2 successes, 1 failure, 2s average latency. -/
def sample_high : ProxyInfo :=
  { host := "h", port := 1, success_count := 2, fail_count := 1,
    avg_response_time := 2, last_check_time := 0 }

/-- Witness for `score_bounds_monotone` at `sample_low`/`sample_high`. -/
theorem score_bounds_monotone_witness :
    ((0 : ℚ) ≤ sample_low.avg_response_time ∧
      0 ≤ sample_low.score ∧ sample_low.score ≤ 1) ∧
    (sample_low.success_rate < sample_high.success_rate ∧
      sample_low.score < sample_high.score) :=
  ⟨⟨by norm_num [sample_low],
    (score_bounds_monotone sample_low sample_high).1 (by norm_num [sample_low])⟩,
   ⟨by norm_num [sample_low, sample_high, ProxyInfo.success_rate],
    (score_bounds_monotone sample_low sample_high).2.2.1
      (by norm_num [sample_low]) (by norm_num [sample_high]) rfl
      (by norm_num [sample_low, sample_high, ProxyInfo.success_rate])⟩⟩

/-- Embeds `ProxyPool._proxy_key`: the dict key string `"host:port"`. -/
def proxy_key (p : ProxyInfo) : String := p.host ++ ":" ++ toString p.port

/-- The proxy storage entry type: dict key paired with the stored record. -/
abbrev PoolEntry := String × ProxyInfo

/-- Lookup in the insertion-ordered storage, as `key in self._proxies` /
`self._proxies[key]`. -/
def find_proxy : List PoolEntry → String → Option ProxyInfo
  | [], _ => none
  | e :: rest, k => if e.1 = k then some e.2 else find_proxy rest k

/-- Replace the value stored at a key (Python in-place mutation of the
stored record; the dict keeps the entry's position). -/
def update_proxy : List PoolEntry → String → ProxyInfo → List PoolEntry
  | [], _, _ => []
  | e :: rest, k, q => if e.1 = k then (k, q) :: rest else e :: update_proxy rest k q

/-- Delete a key, as `del self._proxies[key]`. -/
def erase_proxy : List PoolEntry → String → List PoolEntry
  | [], _ => []
  | e :: rest, k => if e.1 = k then rest else e :: erase_proxy rest k

/-- Embeds the `ProxyPool` object state: the `_proxies` dict as an
insertion-ordered association list, the constructor configuration (with the
source's default values) and the lifecycle flags.  `task_alive` records
whether the background refresh task is live, and `tasks_launched` counts how
many background tasks were ever created. -/
structure PoolState where
  proxies : List PoolEntry := []
  min_proxies : Nat := 10
  max_proxies : Nat := 100
  check_interval : Nat := 300
  max_fail_count : Nat := 3
  score_threshold : ℚ := 3/10
  running : Bool := false
  task_alive : Bool := false
  tasks_launched : Nat := 0
deriving DecidableEq, Repr

/-- Embeds the `size` property: `len(self._proxies)`. -/
def PoolState.size (s : PoolState) : Nat := s.proxies.length

/-- The in-place mutation `stored_proxy.success_count += 1`. -/
def bump_success (q : ProxyInfo) : ProxyInfo :=
  { q with success_count := q.success_count + 1 }

/-- The in-place mutation `stored_proxy.fail_count += 1`. -/
def bump_fail (q : ProxyInfo) : ProxyInfo :=
  { q with fail_count := q.fail_count + 1 }

/-- Embeds `ProxyPool.return_proxy`: no-op when the key is absent; on
success, increments the stored record's `success_count`; on failure,
increments `fail_count` and then deletes the record exactly when
`fail_count >= max_fail_count`, the sample total is at least 5 and the
score is below `score_threshold`. -/
def return_proxy (s : PoolState) (p : ProxyInfo) (success : Bool) : PoolState :=
  let key := proxy_key p
  match find_proxy s.proxies key with
  | none => s
  | some stored =>
    if success then
      { s with proxies := update_proxy s.proxies key (bump_success stored) }
    else
      let stored' := bump_fail stored
      if stored'.fail_count ≥ s.max_fail_count ∧
          stored'.success_count + stored'.fail_count ≥ 5 ∧
          stored'.score < s.score_threshold then
        { s with proxies := erase_proxy s.proxies key }
      else
        { s with proxies := update_proxy s.proxies key stored' }

/-- Embeds `ProxyPool.add_proxy`: insert only when the key is new and the
pool is below `max_proxies`. -/
def add_proxy (s : PoolState) (p : ProxyInfo) : PoolState :=
  let key := proxy_key p
  if find_proxy s.proxies key = none ∧ s.proxies.length < s.max_proxies then
    { s with proxies := s.proxies ++ [(key, p)] }
  else s

/-- Embeds `ProxyPool.remove_proxy`: delete the key when present. -/
def remove_proxy (s : PoolState) (p : ProxyInfo) : PoolState :=
  { s with proxies := erase_proxy s.proxies (proxy_key p) }

/-- Embeds the add-loop of `ProxyPool._refresh_proxies`: each validated
record is inserted when its key is new and the pool is below capacity. -/
def refresh_add (s : PoolState) (valid : List ProxyInfo) : PoolState :=
  valid.foldl (fun st p =>
    if find_proxy st.proxies (proxy_key p) = none ∧
        st.proxies.length < st.max_proxies then
      { st with proxies := st.proxies ++ [(proxy_key p, p)] }
    else st) s

/-- Embeds `ProxyPool._cleanup_stale_proxies`: drop every stale record. -/
def cleanup_stale (s : PoolState) (now : ℚ) : PoolState :=
  { s with proxies := s.proxies.filter (fun e => ! e.2.is_stale now) }

/-- The selection weights of `ProxyPool.get_proxy`:
`[max(p.score, 0.1) for p in proxies]`. -/
def selection_weights (ps : List ProxyInfo) : List ℚ :=
  ps.map (fun p => max p.score (1/10))

/-- Inverse-CDF index selection: the semantics of
`random.choices(proxies, weights=weights, k=1)` for a draw `r` uniform in
`[0, Σ weights)` — the chosen index is the one whose cumulative-weight
interval contains `r`. -/
def select_index : List ℚ → ℚ → Nat
  | [], _ => 0
  | w :: rest, r => if r < w then 0 else select_index rest (r - w) + 1

/-- Set `last_use_time` of the entry at a position (Python mutates the
selected record in place; the dict keeps its order). -/
def set_last_use : List PoolEntry → Nat → ℚ → List PoolEntry
  | [], _, _ => []
  | e :: rest, 0, now => (e.1, { e.2 with last_use_time := now }) :: rest
  | e :: rest, Nat.succ j, now => e :: set_last_use rest j now

/-- Embeds `ProxyPool.get_proxy`: `None` on an empty pool; otherwise
weighted random selection (draw `r`) over the stored records, stamping the
selected record's `last_use_time` with the current time and returning it. -/
def get_proxy (s : PoolState) (now r : ℚ) : Option ProxyInfo × PoolState :=
  if s.proxies = [] then (none, s)
  else
    let i := select_index (selection_weights (s.proxies.map Prod.snd)) r
    let proxies' := set_last_use s.proxies i now
    ((proxies'[i]?).map Prod.snd, { s with proxies := proxies' })

/-- Embeds `ProxyPool.start`: no-op while running; otherwise sets the
running flag, performs the initial refresh (with the externally validated
records) and launches the background task. -/
def start (s : PoolState) (validated : List ProxyInfo) : PoolState :=
  if s.running then s
  else
    let s' := refresh_add { s with running := true } validated
    { s' with task_alive := true, tasks_launched := s'.tasks_launched + 1 }

/-- Embeds `ProxyPool.stop`: no-op when not running; otherwise clears the
running flag, then cancels the background task and awaits its termination
(modelled by `task_alive := false` holding when `stop` returns). -/
def stop (s : PoolState) : PoolState :=
  if s.running then { s with running := false, task_alive := false }
  else s

/-- Python `max` over a non-empty list (default 0 is never reached by
`get_stats`, which guards on emptiness). -/
def list_max : List ℚ → ℚ
  | [] => 0
  | x :: xs => xs.foldl max x

/-- Python `min` over a non-empty list. -/
def list_min : List ℚ → ℚ
  | [] => 0
  | x :: xs => xs.foldl min x

/-- Embeds `ProxyPool.get_stats`: the returned dict as an ordered list of
(field name, value) pairs.  Note the source returns only four fields on an
empty pool. -/
def get_stats (s : PoolState) : List (String × ℚ) :=
  if s.proxies = [] then
    [("total", 0), ("avg_score", 0), ("max_score", 0), ("min_score", 0)]
  else
    let infos := s.proxies.map Prod.snd
    let scores := infos.map ProxyInfo.score
    [("total", (infos.length : ℚ)),
     ("avg_score", scores.sum / (scores.length : ℚ)),
     ("max_score", list_max scores),
     ("min_score", list_min scores),
     ("total_success", ((infos.map ProxyInfo.success_count).sum : ℚ)),
     ("total_fail", ((infos.map ProxyInfo.fail_count).sum : ℚ))]

/-- Field lookup in a stats dict. -/
def lookup_stat : List (String × ℚ) → String → Option ℚ
  | [], _ => none
  | e :: rest, k => if e.1 = k then some e.2 else lookup_stat rest k

/-- The pool operations that touch the stored collection, for stating
invariants preserved by every operation. -/
inductive PoolOp where
  | addp (p : ProxyInfo)
  | removep (p : ProxyInfo)
  | acquire (now r : ℚ)
  | release (p : ProxyInfo) (success : Bool)
  | refresh (validated : List ProxyInfo)
  | cleanup (now : ℚ)
  | startp (validated : List ProxyInfo)
  | stopp

/-- Run one pool operation on the state. -/
def apply_op (op : PoolOp) (s : PoolState) : PoolState :=
  match op with
  | PoolOp.addp p => add_proxy s p
  | PoolOp.removep p => remove_proxy s p
  | PoolOp.acquire now r => (get_proxy s now r).2
  | PoolOp.release p b => return_proxy s p b
  | PoolOp.refresh v => refresh_add s v
  | PoolOp.cleanup now => cleanup_stale s now
  | PoolOp.startp v => start s v
  | PoolOp.stopp => stop s

lemma find_eq_none_of_not_mem (k : String) :
    ∀ l : List PoolEntry, k ∉ l.map Prod.fst → find_proxy l k = none := by
  intro l
  induction l with
  | nil => intro _; rfl
  | cons e rest ih =>
    intro h
    rw [List.map_cons, List.mem_cons] at h
    push_neg at h
    have he : e.1 ≠ k := fun hh => h.1 hh.symm
    simp [find_proxy, he, ih h.2]

lemma update_proxy_keys (k : String) (q : ProxyInfo) :
    ∀ l : List PoolEntry, (update_proxy l k q).map Prod.fst = l.map Prod.fst := by
  intro l
  induction l with
  | nil => rfl
  | cons e rest ih =>
    by_cases he : e.1 = k
    · simp [update_proxy, he]
    · simp [update_proxy, he, ih]

lemma update_proxy_length (k : String) (q : ProxyInfo) :
    ∀ l : List PoolEntry, (update_proxy l k q).length = l.length := by
  intro l
  induction l with
  | nil => rfl
  | cons e rest ih =>
    by_cases he : e.1 = k
    · simp [update_proxy, he]
    · simp [update_proxy, he, ih]

lemma erase_proxy_length_le (k : String) :
    ∀ l : List PoolEntry, (erase_proxy l k).length ≤ l.length := by
  intro l
  induction l with
  | nil => exact Nat.le_refl _
  | cons e rest ih =>
    by_cases he : e.1 = k
    · simp [erase_proxy, he]
    · simp only [erase_proxy, if_neg he, List.length_cons]
      omega

lemma set_last_use_length (now : ℚ) :
    ∀ (l : List PoolEntry) (i : Nat), (set_last_use l i now).length = l.length := by
  intro l
  induction l with
  | nil => intro i; rfl
  | cons e rest ih =>
    intro i
    match i with
    | 0 => rfl
    | Nat.succ j => simp [set_last_use, ih j]

lemma find_update_same (k : String) (q stored : ProxyInfo) :
    ∀ l : List PoolEntry, find_proxy l k = some stored →
      find_proxy (update_proxy l k q) k = some q := by
  intro l
  induction l with
  | nil => intro h; simp [find_proxy] at h
  | cons e rest ih =>
    intro h
    by_cases he : e.1 = k
    · simp [update_proxy, he, find_proxy]
    · simp only [update_proxy, if_neg he]
      simp only [find_proxy, if_neg he] at h ⊢
      exact ih h

lemma update_of_find_none (k : String) (q : ProxyInfo) :
    ∀ l : List PoolEntry, find_proxy l k = none → update_proxy l k q = l := by
  intro l
  induction l with
  | nil => intro _; rfl
  | cons e rest ih =>
    intro h
    by_cases he : e.1 = k
    · simp [find_proxy, he] at h
    · simp only [find_proxy, if_neg he] at h
      simp [update_proxy, he, ih h]

lemma find_erase_none (k : String) :
    ∀ l : List PoolEntry, (l.map Prod.fst).Nodup →
      find_proxy (erase_proxy l k) k = none := by
  intro l
  induction l with
  | nil => intro _; rfl
  | cons e rest ih =>
    intro hnd
    rw [List.map_cons, List.nodup_cons] at hnd
    by_cases he : e.1 = k
    · simp only [erase_proxy, if_pos he]
      exact find_eq_none_of_not_mem k rest (he ▸ hnd.1)
    · simp only [erase_proxy, if_neg he, find_proxy, if_neg he]
      exact ih hnd.2

lemma update_proxy_getElem (k : String) (q : ProxyInfo) :
    ∀ (l : List PoolEntry) (j : Nat) (e : PoolEntry),
      (l.map Prod.fst).Nodup → l[j]? = some e →
      (update_proxy l k q)[j]? = some (if e.1 = k then (k, q) else e) := by
  intro l
  induction l with
  | nil => intro j e _ h; simp at h
  | cons x rest ih =>
    intro j e hnd h
    rw [List.map_cons, List.nodup_cons] at hnd
    by_cases hx : x.1 = k
    · simp only [update_proxy, if_pos hx]
      match j with
      | 0 =>
        simp only [List.getElem?_cons_zero, Option.some.injEq] at h
        subst h
        simp [hx]
      | Nat.succ j' =>
        simp only [List.getElem?_cons_succ] at h ⊢
        have hmem : e ∈ rest := List.getElem?_mem h
        have : e.1 ≠ k := by
          intro hc
          exact hnd.1 (hx ▸ hc ▸ List.mem_map_of_mem Prod.fst hmem)
        simp [this, h]
    · simp only [update_proxy, if_neg hx]
      match j with
      | 0 =>
        simp only [List.getElem?_cons_zero, Option.some.injEq] at h
        subst h
        simp [hx]
      | Nat.succ j' =>
        simp only [List.getElem?_cons_succ] at h ⊢
        exact ih j' e hnd.2 h

lemma set_last_use_getElem (now : ℚ) :
    ∀ (l : List PoolEntry) (i j : Nat) (e : PoolEntry), l[j]? = some e →
      (set_last_use l i now)[j]? =
        some (if j = i then (e.1, { e.2 with last_use_time := now }) else e) := by
  intro l
  induction l with
  | nil => intro i j e h; simp at h
  | cons x rest ih =>
    intro i j e h
    match i, j with
    | 0, 0 =>
      simp only [List.getElem?_cons_zero, Option.some.injEq] at h
      subst h
      simp [set_last_use]
    | 0, Nat.succ j' =>
      simp only [List.getElem?_cons_succ] at h
      simp [set_last_use, h]
    | Nat.succ i', 0 =>
      simp only [List.getElem?_cons_zero, Option.some.injEq] at h
      subst h
      simp [set_last_use]
    | Nat.succ i', Nat.succ j' =>
      simp only [List.getElem?_cons_succ] at h
      have := ih i' j' e h
      simp only [set_last_use, List.getElem?_cons_succ, this]
      by_cases hj : j' = i'
      · simp [hj]
      · simp [hj, Nat.succ_ne_succ]

lemma find_of_getElem :
    ∀ (l : List PoolEntry) (j : Nat) (e : PoolEntry),
      (l.map Prod.fst).Nodup → l[j]? = some e → find_proxy l e.1 = some e.2 := by
  intro l
  induction l with
  | nil => intro j e _ h; simp at h
  | cons x rest ih =>
    intro j e hnd h
    rw [List.map_cons, List.nodup_cons] at hnd
    match j with
    | 0 =>
      simp only [List.getElem?_cons_zero, Option.some.injEq] at h
      subst h
      simp [find_proxy]
    | Nat.succ j' =>
      simp only [List.getElem?_cons_succ] at h
      have hmem : e ∈ rest := List.getElem?_mem h
      have hne : x.1 ≠ e.1 := by
        intro hc
        exact hnd.1 (hc ▸ List.mem_map_of_mem Prod.fst hmem)
      simp only [find_proxy, if_neg hne]
      exact ih j' e hnd.2 h

/-- The eviction condition checked by `return_proxy` on a failed release:
stated on the already-incremented record `bump_fail stored`. -/
def evict_cond (s : PoolState) (stored : ProxyInfo) : Prop :=
  (bump_fail stored).fail_count ≥ s.max_fail_count ∧
  (bump_fail stored).success_count + (bump_fail stored).fail_count ≥ 5 ∧
  (bump_fail stored).score < s.score_threshold

instance evict_cond_decidable (s : PoolState) (stored : ProxyInfo) :
    Decidable (evict_cond s stored) := by
  unfold evict_cond
  infer_instance

lemma return_proxy_none_eq (s : PoolState) (p : ProxyInfo) (b : Bool)
    (hfind : find_proxy s.proxies (proxy_key p) = none) :
    return_proxy s p b = s := by
  simp only [return_proxy, hfind]

lemma return_proxy_true_eq (s : PoolState) (p stored : ProxyInfo)
    (hfind : find_proxy s.proxies (proxy_key p) = some stored) :
    return_proxy s p true =
      { s with proxies := update_proxy s.proxies (proxy_key p) (bump_success stored) } := by
  simp [return_proxy, hfind]

lemma return_proxy_false_eq (s : PoolState) (p stored : ProxyInfo)
    (hfind : find_proxy s.proxies (proxy_key p) = some stored) :
    return_proxy s p false =
      if evict_cond s stored
      then { s with proxies := erase_proxy s.proxies (proxy_key p) }
      else { s with proxies := update_proxy s.proxies (proxy_key p) (bump_fail stored) } := by
  simp only [return_proxy, evict_cond, hfind]
  rfl

/-- C1: a failed release on a stored record increments its `fail_count` by
one, and the record is removed in the same update exactly when, after the
increment, `fail_count ≥ max_fail_count`, the sample total is at least 5
and the score is below `score_threshold`; a record whose post-increment
total is only 2 is never evicted. -/
theorem release_failure_eviction (s : PoolState) (p stored : ProxyInfo)
    (hnd : (s.proxies.map Prod.fst).Nodup)
    (hfind : find_proxy s.proxies (proxy_key p) = some stored) :
    (find_proxy (return_proxy s p false).proxies (proxy_key p) = none ↔
      evict_cond s stored) ∧
    (¬ evict_cond s stored →
      find_proxy (return_proxy s p false).proxies (proxy_key p) =
        some (bump_fail stored)) ∧
    ((bump_fail stored).success_count + (bump_fail stored).fail_count ≤ 2 →
      find_proxy (return_proxy s p false).proxies (proxy_key p) =
        some (bump_fail stored)) := by
  have heq := return_proxy_false_eq s p stored hfind
  by_cases hc : evict_cond s stored
  · rw [heq, if_pos hc]
    have hnone : find_proxy (erase_proxy s.proxies (proxy_key p)) (proxy_key p) = none :=
      find_erase_none (proxy_key p) s.proxies hnd
    refine ⟨⟨fun _ => hc, fun _ => hnone⟩, fun hn => absurd hc hn, fun h2 => ?_⟩
    exact absurd hc.2.1 (by omega)
  · rw [heq, if_neg hc]
    have hupd : find_proxy (update_proxy s.proxies (proxy_key p) (bump_fail stored))
        (proxy_key p) = some (bump_fail stored) :=
      find_update_same (proxy_key p) (bump_fail stored) stored s.proxies hfind
    refine ⟨⟨fun hnone => ?_, fun hcc => absurd hcc hc⟩, fun _ => hupd, fun _ => hupd⟩
    rw [show ({ s with proxies := update_proxy s.proxies (proxy_key p) (bump_fail stored) }
        : PoolState).proxies = update_proxy s.proxies (proxy_key p) (bump_fail stored)
      from rfl, hupd] at hnone
    cases hnone

/-- A poorly-performing record: 1 success, 4 failures, 10s average latency. -/
def bad_proxy : ProxyInfo :=
  { host := "9.9.9.9", port := 8000, success_count := 1, fail_count := 4,
    avg_response_time := 10, last_check_time := 0 }

/-- A one-record pool (default configuration) holding `bad_proxy`. -/
def pool_bad : PoolState := { proxies := [(proxy_key bad_proxy, bad_proxy)] }

/-- Witness for `release_failure_eviction`: on a failed release `bad_proxy`
trips all three conditions (fail 5 ≥ 3, total 6 ≥ 5, score 7/60 < 3/10)
and is evicted. -/
theorem release_failure_eviction_witness :
    ((pool_bad.proxies.map Prod.fst).Nodup ∧
      find_proxy pool_bad.proxies (proxy_key bad_proxy) = some bad_proxy) ∧
    (find_proxy (return_proxy pool_bad bad_proxy false).proxies
        (proxy_key bad_proxy) = none ↔ evict_cond pool_bad bad_proxy) :=
  ⟨⟨by decide, by decide⟩,
   (release_failure_eviction pool_bad bad_proxy bad_proxy (by decide) (by decide)).1⟩

/-- C4: acquiring from an empty pool returns `None` and leaves the state
untouched (the embedded transition is total: no exception, no blocking). -/
theorem acquire_empty_pool (s : PoolState) (now r : ℚ) (h : s.proxies = []) :
    get_proxy s now r = (none, s) := by
  simp [get_proxy, h]

/-- Witness for `acquire_empty_pool` on the default-constructed pool. -/
theorem acquire_empty_pool_witness :
    (({} : PoolState).proxies = []) ∧ get_proxy {} 0 0 = (none, {}) :=
  ⟨rfl, acquire_empty_pool {} 0 0 rfl⟩

/-- C5: a release whose `(host, port)` key is not stored is a complete
no-op, and the effect of a release depends on the passed record only
through its key — the mutation targets the stored record found by the
lookup, never the caller's copy. -/
theorem release_missing_noop (s : PoolState) (p q : ProxyInfo) (b : Bool) :
    (find_proxy s.proxies (proxy_key p) = none → return_proxy s p b = s) ∧
    (proxy_key p = proxy_key q → return_proxy s p b = return_proxy s q b) := by
  constructor
  · exact return_proxy_none_eq s p b
  · intro h
    unfold return_proxy
    rw [h]

/-- A record sharing `bad_proxy`'s identity but no statistics. -/
def bad_proxy_copy : ProxyInfo :=
  { host := "9.9.9.9", port := 8000, last_check_time := 50 }

/-- Witness for `release_missing_noop`: releasing an absent record into the
empty pool is a no-op, and a caller-side copy with the same key behaves as
the original. -/
theorem release_missing_noop_witness :
    (find_proxy ({} : PoolState).proxies (proxy_key bad_proxy) = none ∧
      return_proxy {} bad_proxy true = {}) ∧
    (proxy_key bad_proxy = proxy_key bad_proxy_copy ∧
      return_proxy pool_bad bad_proxy false = return_proxy pool_bad bad_proxy_copy false) :=
  ⟨⟨rfl, (release_missing_noop {} bad_proxy bad_proxy true).1 rfl⟩,
   ⟨by decide, (release_missing_noop pool_bad bad_proxy bad_proxy_copy false).2 (by decide)⟩⟩

/-- C10: a successful release removes nothing — the stored keys are exactly
preserved — and its only change is bumping `success_count` of the record
stored under the released key; every other entry, every other field and the
pool configuration are untouched. -/
theorem release_success_frame (s : PoolState) (p : ProxyInfo)
    (hnd : (s.proxies.map Prod.fst).Nodup) :
    ((return_proxy s p true).proxies.map Prod.fst = s.proxies.map Prod.fst) ∧
    (∀ (j : Nat) (e : PoolEntry), s.proxies[j]? = some e →
      (return_proxy s p true).proxies[j]? =
        some (if e.1 = proxy_key p then (e.1, bump_success e.2) else e)) ∧
    (return_proxy s p true).max_proxies = s.max_proxies ∧
    (return_proxy s p true).max_fail_count = s.max_fail_count ∧
    (return_proxy s p true).running = s.running := by
  cases hfind : find_proxy s.proxies (proxy_key p) with
  | none =>
    rw [return_proxy_none_eq s p true hfind]
    refine ⟨rfl, fun j e hj => ?_, rfl, rfl, rfl⟩
    have hne : e.1 ≠ proxy_key p := by
      intro hc
      have h2 := find_of_getElem s.proxies j e hnd hj
      rw [hc, hfind] at h2
      cases h2
    simp [hne, hj]
  | some stored =>
    rw [return_proxy_true_eq s p stored hfind]
    refine ⟨update_proxy_keys _ _ _, fun j e hj => ?_, rfl, rfl, rfl⟩
    have h3 := update_proxy_getElem (proxy_key p) (bump_success stored) s.proxies j e hnd hj
    refine h3.trans ?_
    by_cases he : e.1 = proxy_key p
    · have h2 := find_of_getElem s.proxies j e hnd hj
      rw [he, hfind] at h2
      have hst : stored = e.2 := Option.some.inj h2
      simp [he, hst]
    · simp [he]

/-- A second record distinct from `bad_proxy`, stored alongside it. -/
def other_proxy : ProxyInfo :=
  { host := "8.8.8.8", port := 3128, success_count := 7, last_check_time := 0 }

/-- A two-record pool holding `bad_proxy` and `other_proxy`. -/
def pool_two : PoolState :=
  { proxies := [(proxy_key bad_proxy, bad_proxy), (proxy_key other_proxy, other_proxy)] }

/-- Witness for `release_success_frame` on `pool_two`. -/
theorem release_success_frame_witness :
    (pool_two.proxies.map Prod.fst).Nodup ∧
    (return_proxy pool_two bad_proxy true).proxies.map Prod.fst =
      pool_two.proxies.map Prod.fst :=
  ⟨by decide, (release_success_frame pool_two bad_proxy (by decide)).1⟩

lemma refresh_add_cons (s : PoolState) (p : ProxyInfo) (rest : List ProxyInfo) :
    refresh_add s (p :: rest) =
      refresh_add
        (if find_proxy s.proxies (proxy_key p) = none ∧
            s.proxies.length < s.max_proxies then
          { s with proxies := s.proxies ++ [(proxy_key p, p)] }
        else s) rest := rfl

lemma refresh_add_frame :
    ∀ (v : List ProxyInfo) (s : PoolState),
      (refresh_add s v).max_proxies = s.max_proxies ∧
      (refresh_add s v).max_fail_count = s.max_fail_count ∧
      (refresh_add s v).score_threshold = s.score_threshold ∧
      (refresh_add s v).running = s.running ∧
      (refresh_add s v).task_alive = s.task_alive ∧
      (refresh_add s v).tasks_launched = s.tasks_launched := by
  intro v
  induction v with
  | nil => intro s; exact ⟨rfl, rfl, rfl, rfl, rfl, rfl⟩
  | cons p rest ih =>
    intro s
    rw [refresh_add_cons]
    by_cases hc : find_proxy s.proxies (proxy_key p) = none ∧
        s.proxies.length < s.max_proxies
    · rw [if_pos hc]
      exact ih { s with proxies := s.proxies ++ [(proxy_key p, p)] }
    · rw [if_neg hc]
      exact ih s

lemma refresh_add_size_le :
    ∀ (v : List ProxyInfo) (s : PoolState), s.proxies.length ≤ s.max_proxies →
      (refresh_add s v).proxies.length ≤ s.max_proxies := by
  intro v
  induction v with
  | nil => intro s h; exact h
  | cons p rest ih =>
    intro s h
    rw [refresh_add_cons]
    by_cases hc : find_proxy s.proxies (proxy_key p) = none ∧
        s.proxies.length < s.max_proxies
    · rw [if_pos hc]
      have := ih { s with proxies := s.proxies ++ [(proxy_key p, p)] } (by simp; omega)
      simpa using this
    · rw [if_neg hc]
      exact ih s h

/-- C7: `size ≤ max_proxies` is preserved by every pool operation and the
capacity itself never changes; moreover `add_proxy` is a no-op at capacity
or on an already-stored key (so `refresh_add` can create records only while
below capacity and only under new keys). -/
theorem capacity_invariant (s : PoolState) (op : PoolOp) (p : ProxyInfo)
    (hcap : s.size ≤ s.max_proxies) :
    ((apply_op op s).size ≤ (apply_op op s).max_proxies ∧
      (apply_op op s).max_proxies = s.max_proxies) ∧
    (s.max_proxies ≤ s.proxies.length → add_proxy s p = s) ∧
    (find_proxy s.proxies (proxy_key p) ≠ none → add_proxy s p = s) := by
  unfold PoolState.size at hcap ⊢
  refine ⟨?_, fun hfull => ?_, fun hfound => ?_⟩
  · cases op with
    | addp q =>
      simp only [apply_op, add_proxy]
      by_cases hc : find_proxy s.proxies (proxy_key q) = none ∧
          s.proxies.length < s.max_proxies
      · rw [if_pos hc]
        refine ⟨?_, rfl⟩
        simp only [List.length_append, List.length_cons, List.length_nil]
        omega
      · rw [if_neg hc]
        exact ⟨hcap, rfl⟩
    | removep q =>
      simp only [apply_op, remove_proxy]
      exact ⟨le_trans (erase_proxy_length_le _ _) hcap, trivial⟩
    | acquire now r =>
      simp only [apply_op, get_proxy]
      by_cases hc : s.proxies = []
      · rw [if_pos hc]
        exact ⟨hcap, rfl⟩
      · rw [if_neg hc]
        refine ⟨?_, rfl⟩
        show (set_last_use s.proxies _ now).length ≤ s.max_proxies
        rw [set_last_use_length]
        exact hcap
    | release q b =>
      simp only [apply_op]
      cases hfind : find_proxy s.proxies (proxy_key q) with
      | none => rw [return_proxy_none_eq s q b hfind]; exact ⟨hcap, rfl⟩
      | some stored =>
        cases b with
        | true =>
          rw [return_proxy_true_eq s q stored hfind]
          refine ⟨?_, rfl⟩
          show (update_proxy s.proxies (proxy_key q) (bump_success stored)).length ≤
            s.max_proxies
          rw [update_proxy_length]
          exact hcap
        | false =>
          rw [return_proxy_false_eq s q stored hfind]
          by_cases hc : evict_cond s stored
          · rw [if_pos hc]
            exact ⟨le_trans (erase_proxy_length_le _ _) hcap, rfl⟩
          · rw [if_neg hc]
            refine ⟨?_, rfl⟩
            show (update_proxy s.proxies (proxy_key q) (bump_fail stored)).length ≤
              s.max_proxies
            rw [update_proxy_length]
            exact hcap
    | refresh v =>
      simp only [apply_op]
      have h1 := refresh_add_size_le v s hcap
      have h2 := (refresh_add_frame v s).1
      exact ⟨le_of_le_of_eq h1 h2.symm, h2⟩
    | cleanup now =>
      simp only [apply_op, cleanup_stale]
      exact ⟨le_trans (List.length_filter_le _ _) hcap, trivial⟩
    | startp v =>
      simp only [apply_op, start]
      by_cases hr : s.running = true
      · rw [if_pos hr]
        exact ⟨hcap, rfl⟩
      · rw [if_neg hr]
        have h1 := refresh_add_size_le v { s with running := true } hcap
        have h2 := (refresh_add_frame v { s with running := true }).1
        exact ⟨le_of_le_of_eq h1 h2.symm, h2⟩
    | stopp =>
      simp only [apply_op, stop]
      by_cases hr : s.running = true
      · rw [if_pos hr]
        exact ⟨hcap, rfl⟩
      · rw [if_neg hr]
        exact ⟨hcap, rfl⟩
  · simp only [add_proxy]
    rw [if_neg (by omega)]
  · simp only [add_proxy]
    rw [if_neg (by tauto)]

/-- Witness for `capacity_invariant`: adding a fresh record to the
one-record default-capacity pool keeps `size ≤ max_proxies`. -/
theorem capacity_invariant_witness :
    pool_bad.size ≤ pool_bad.max_proxies ∧
    ((apply_op (PoolOp.addp other_proxy) pool_bad).size ≤
       (apply_op (PoolOp.addp other_proxy) pool_bad).max_proxies ∧
     (apply_op (PoolOp.addp other_proxy) pool_bad).max_proxies =
       pool_bad.max_proxies) :=
  ⟨by decide, (capacity_invariant pool_bad (PoolOp.addp other_proxy) other_proxy (by decide)).1⟩

/-- C9: `start` while running is a no-op (in particular no second
background task is launched), `stop` when not running is a no-op (safe if
never started), a start from stopped launches exactly one task, and when
`stop` returns after a running phase the background task has been cancelled
and has terminated (`task_alive = false`). -/
theorem lifecycle_idempotent (s : PoolState) (v : List ProxyInfo) :
    (s.running = true → start s v = s) ∧
    (s.running = false → stop s = s) ∧
    (s.running = false →
      (start s v).running = true ∧ (start s v).task_alive = true ∧
      (start s v).tasks_launched = s.tasks_launched + 1) ∧
    (s.running = true → (stop s).running = false ∧ (stop s).task_alive = false) := by
  refine ⟨fun h => ?_, fun h => ?_, fun h => ?_, fun h => ?_⟩
  · simp [start, h]
  · simp [stop, h]
  · have hr : ¬ s.running = true := by simp [h]
    have h1 := (refresh_add_frame v { s with running := true }).2.2.2.1
    have h2 := (refresh_add_frame v { s with running := true }).2.2.2.2.2
    refine ⟨?_, ?_, ?_⟩ <;> simp [start, hr, h1, h2]
  · simp [stop, h]

/-- Witness for `lifecycle_idempotent`: starting the default stopped pool
(with no fetched records) launches exactly one task, and stopping it again
is safe and leaves no live task. -/
theorem lifecycle_idempotent_witness :
    (({} : PoolState).running = false) ∧
    ((start {} []).running = true ∧ (start {} []).task_alive = true ∧
      (start {} []).tasks_launched = ({} : PoolState).tasks_launched + 1) :=
  ⟨rfl, (lifecycle_idempotent {} []).2.2.1 rfl⟩

lemma selection_weights_floor (ps : List ProxyInfo) :
    ∀ w ∈ selection_weights ps, (1:ℚ)/10 ≤ w := by
  intro w hw
  simp only [selection_weights, List.mem_map] at hw
  obtain ⟨p, _, rfl⟩ := hw
  exact le_max_right _ _

lemma selection_weights_length (ps : List ProxyInfo) :
    (selection_weights ps).length = ps.length := List.length_map _ _

lemma select_index_lt_length :
    ∀ (ws : List ℚ) (r : ℚ), 0 ≤ r → r < ws.sum → select_index ws r < ws.length := by
  intro ws
  induction ws with
  | nil =>
    intro r h0 hlt
    rw [List.sum_nil] at hlt
    exact absurd hlt (by linarith)
  | cons w rest ih =>
    intro r h0 hlt
    by_cases hc : r < w
    · simp [select_index, hc]
    · simp only [select_index, if_neg hc, List.length_cons]
      push_neg at hc
      have h0' : 0 ≤ r - w := by linarith
      have hlt' : r - w < rest.sum := by
        rw [List.sum_cons] at hlt
        linarith
      exact Nat.succ_lt_succ (ih (r - w) h0' hlt')

lemma take_sum_lt_sum :
    ∀ (ws : List ℚ) (j : Nat), (∀ w ∈ ws, 0 < w) → j < ws.length →
      (ws.take j).sum < ws.sum := by
  intro ws
  induction ws with
  | nil => intro j _ hj; simp at hj
  | cons w rest ih =>
    intro j hpos hj
    match j with
    | 0 =>
      simp only [List.take_zero, List.sum_nil, List.sum_cons]
      have hw : 0 < w := hpos w (List.mem_cons_self w rest)
      have hrest : 0 ≤ rest.sum :=
        List.sum_nonneg (fun x hx => le_of_lt (hpos x (List.mem_cons_of_mem w hx)))
      linarith
    | Nat.succ j' =>
      simp only [List.take_succ_cons, List.sum_cons]
      have := ih j' (fun x hx => hpos x (List.mem_cons_of_mem w hx))
        (Nat.lt_of_succ_lt_succ hj)
      linarith

lemma select_index_prefix :
    ∀ (ws : List ℚ) (j : Nat), (∀ w ∈ ws, 0 < w) → j < ws.length →
      select_index ws ((ws.take j).sum) = j := by
  intro ws
  induction ws with
  | nil => intro j _ hj; simp at hj
  | cons w rest ih =>
    intro j hpos hj
    match j with
    | 0 =>
      simp only [List.take_zero, List.sum_nil, select_index]
      rw [if_pos (hpos w (List.mem_cons_self w rest))]
    | Nat.succ j' =>
      simp only [List.take_succ_cons, List.sum_cons, select_index]
      have hge : ¬ (w + (rest.take j').sum < w) := by
        have : 0 ≤ (rest.take j').sum :=
          List.sum_nonneg (fun x hx =>
            le_of_lt (hpos x (List.mem_cons_of_mem w (List.take_subset j' rest hx))))
        linarith
      rw [if_neg hge]
      have harg : w + (rest.take j').sum - w = (rest.take j').sum := by ring
      rw [harg, ih j' (fun x hx => hpos x (List.mem_cons_of_mem w hx))
        (Nat.lt_of_succ_lt_succ hj)]

/-- The in-place mutation `selected.last_use_time = time.time()`. -/
def touch (e : PoolEntry) (now : ℚ) : PoolEntry :=
  (e.1, { e.2 with last_use_time := now })

/-- The index drawn by `get_proxy` for a draw `r`. -/
def chosen_index (s : PoolState) (r : ℚ) : Nat :=
  select_index (selection_weights (s.proxies.map Prod.snd)) r

/-- C3: on a non-empty pool, acquisition draws over weights
`max(score, 0.1)` — so every weight is at least 0.1 and every stored record
has a draw selecting it — and the selected entry (a stored record, returned
to the caller) is stamped with `last_use_time = now` as the only state
change. -/
theorem acquire_weighted_selection (s : PoolState) (now r : ℚ)
    (hne : s.proxies ≠ [])
    (hr0 : 0 ≤ r)
    (hrs : r < (selection_weights (s.proxies.map Prod.snd)).sum) :
    (∀ w ∈ selection_weights (s.proxies.map Prod.snd), (1:ℚ)/10 ≤ w) ∧
    (∀ j, j < s.proxies.length →
      ∃ t, 0 ≤ t ∧ t < (selection_weights (s.proxies.map Prod.snd)).sum ∧
        select_index (selection_weights (s.proxies.map Prod.snd)) t = j) ∧
    (chosen_index s r < s.proxies.length) ∧
    ((get_proxy s now r).2 =
      { s with proxies := set_last_use s.proxies (chosen_index s r) now }) ∧
    (∀ (j : Nat) (e : PoolEntry), s.proxies[j]? = some e →
      (get_proxy s now r).2.proxies[j]? =
        some (if j = chosen_index s r then touch e now else e)) ∧
    ((get_proxy s now r).1 =
      ((get_proxy s now r).2.proxies[chosen_index s r]?).map Prod.snd) := by
  have hfloor := selection_weights_floor (s.proxies.map Prod.snd)
  have hpos : ∀ w ∈ selection_weights (s.proxies.map Prod.snd), 0 < w :=
    fun w hw => lt_of_lt_of_le (by norm_num) (hfloor w hw)
  have hlen : (selection_weights (s.proxies.map Prod.snd)).length = s.proxies.length := by
    rw [selection_weights_length, List.length_map]
  have hstate : (get_proxy s now r).2 =
      { s with proxies := set_last_use s.proxies (chosen_index s r) now } := by
    simp [get_proxy, chosen_index, hne]
  refine ⟨hfloor, fun j hj => ?_, ?_, hstate, fun j e hj => ?_, ?_⟩
  · refine ⟨((selection_weights (s.proxies.map Prod.snd)).take j).sum, ?_, ?_, ?_⟩
    · exact List.sum_nonneg (fun x hx =>
        le_of_lt (hpos x (List.take_subset j _ hx)))
    · exact take_sum_lt_sum _ j hpos (hlen ▸ hj)
    · exact select_index_prefix _ j hpos (hlen ▸ hj)
  · exact hlen ▸ select_index_lt_length _ r hr0 hrs
  · rw [hstate]
    exact (set_last_use_getElem now s.proxies _ j e hj).trans (by simp [touch])
  · simp [get_proxy, chosen_index, hne]

/-- Witness for `acquire_weighted_selection` on `pool_two` with draw 0. -/
theorem acquire_weighted_selection_witness :
    (pool_two.proxies ≠ [] ∧ (0:ℚ) ≤ 0 ∧
      (0:ℚ) < (selection_weights (pool_two.proxies.map Prod.snd)).sum) ∧
    chosen_index pool_two 0 < pool_two.proxies.length :=
  ⟨⟨by decide, le_refl 0,
    by norm_num [pool_two, selection_weights, bad_proxy, other_proxy, ProxyInfo.score]⟩,
   (acquire_weighted_selection pool_two 123 0 (by decide) (le_refl 0)
      (by norm_num [pool_two, selection_weights, bad_proxy, other_proxy,
        ProxyInfo.score])).2.2.1⟩

lemma foldl_max_mem :
    ∀ (l : List ℚ) (a : ℚ), List.foldl max a l = a ∨ List.foldl max a l ∈ l := by
  intro l
  induction l with
  | nil => intro a; exact Or.inl rfl
  | cons y ys ih =>
    intro a
    rw [List.foldl_cons]
    rcases ih (max a y) with h | h
    · rcases le_total a y with hay | hay
      · right
        rw [h, max_eq_right hay]
        exact List.mem_cons_self y ys
      · left
        rw [h, max_eq_left hay]
    · right
      exact List.mem_cons_of_mem y h

lemma foldl_max_bound :
    ∀ (l : List ℚ) (a : ℚ),
      a ≤ List.foldl max a l ∧ ∀ x ∈ l, x ≤ List.foldl max a l := by
  intro l
  induction l with
  | nil => intro a; exact ⟨le_refl a, by simp⟩
  | cons y ys ih =>
    intro a
    rw [List.foldl_cons]
    obtain ⟨h1, h2⟩ := ih (max a y)
    refine ⟨le_trans (le_max_left a y) h1, fun x hx => ?_⟩
    rcases List.mem_cons.mp hx with rfl | hx'
    · exact le_trans (le_max_right a x) h1
    · exact h2 x hx'

lemma foldl_min_mem :
    ∀ (l : List ℚ) (a : ℚ), List.foldl min a l = a ∨ List.foldl min a l ∈ l := by
  intro l
  induction l with
  | nil => intro a; exact Or.inl rfl
  | cons y ys ih =>
    intro a
    rw [List.foldl_cons]
    rcases ih (min a y) with h | h
    · rcases le_total a y with hay | hay
      · left
        rw [h, min_eq_left hay]
      · right
        rw [h, min_eq_right hay]
        exact List.mem_cons_self y ys
    · right
      exact List.mem_cons_of_mem y h

lemma foldl_min_bound :
    ∀ (l : List ℚ) (a : ℚ),
      List.foldl min a l ≤ a ∧ ∀ x ∈ l, List.foldl min a l ≤ x := by
  intro l
  induction l with
  | nil => intro a; exact ⟨le_refl a, by simp⟩
  | cons y ys ih =>
    intro a
    rw [List.foldl_cons]
    obtain ⟨h1, h2⟩ := ih (min a y)
    refine ⟨le_trans h1 (min_le_left a y), fun x hx => ?_⟩
    rcases List.mem_cons.mp hx with rfl | hx'
    · exact le_trans h1 (min_le_right a x)
    · exact h2 x hx'

lemma list_max_spec (l : List ℚ) (h : l ≠ []) :
    list_max l ∈ l ∧ ∀ x ∈ l, x ≤ list_max l := by
  match l with
  | [] => exact absurd rfl h
  | y :: ys =>
    constructor
    · rcases foldl_max_mem ys y with hm | hm
      · rw [list_max, hm]
        exact List.mem_cons_self y ys
      · exact List.mem_cons_of_mem y (by rw [list_max]; exact hm)
    · intro x hx
      rcases List.mem_cons.mp hx with rfl | hx'
      · exact (foldl_max_bound ys x).1
      · exact (foldl_max_bound ys y).2 x hx'

lemma list_min_spec (l : List ℚ) (h : l ≠ []) :
    list_min l ∈ l ∧ ∀ x ∈ l, list_min l ≤ x := by
  match l with
  | [] => exact absurd rfl h
  | y :: ys =>
    constructor
    · rcases foldl_min_mem ys y with hm | hm
      · rw [list_min, hm]
        exact List.mem_cons_self y ys
      · exact List.mem_cons_of_mem y (by rw [list_min]; exact hm)
    · intro x hx
      rcases List.mem_cons.mp hx with rfl | hx'
      · exact (foldl_min_bound ys x).1
      · exact (foldl_min_bound ys y).2 x hx'

/-- The list of scores of the stored records, in storage order. -/
def pool_scores (s : PoolState) : List ℚ :=
  (s.proxies.map Prod.snd).map ProxyInfo.score

/-- C6 counterexample: on the empty pool `get_stats` returns only the four
fields total/avg_score/max_score/min_score — `total_success` and
`total_fail` are absent, refuting the claim that all six fields are present
for every pool state. -/
theorem stats_missing_totals_counterexample :
    lookup_stat (get_stats {}) "total_success" = none ∧
    lookup_stat (get_stats {}) "total_fail" = none ∧
    (get_stats {}).length = 4 := by
  refine ⟨by decide, by decide, by decide⟩

/-- C6 (amended): on the empty pool `get_stats` returns exactly the four
zero fields; on a non-empty pool it returns all six fields, with `total`
equal to `size`, `avg_score` the mean of the stored scores, `max_score` and
`min_score` their maximum and minimum, and `total_success`/`total_fail`
the summed counters. -/
theorem stats_fields (s : PoolState) :
    (s.proxies = [] →
      get_stats s = [("total", 0), ("avg_score", 0), ("max_score", 0), ("min_score", 0)]) ∧
    (s.proxies ≠ [] →
      lookup_stat (get_stats s) "total" = some ((s.size : ℚ)) ∧
      lookup_stat (get_stats s) "avg_score" = some ((pool_scores s).sum / (s.size : ℚ)) ∧
      lookup_stat (get_stats s) "max_score" = some (list_max (pool_scores s)) ∧
      lookup_stat (get_stats s) "min_score" = some (list_min (pool_scores s)) ∧
      lookup_stat (get_stats s) "total_success" =
        some ((((s.proxies.map Prod.snd).map ProxyInfo.success_count).sum : ℚ)) ∧
      lookup_stat (get_stats s) "total_fail" =
        some ((((s.proxies.map Prod.snd).map ProxyInfo.fail_count).sum : ℚ)) ∧
      (list_max (pool_scores s) ∈ pool_scores s ∧
        ∀ x ∈ pool_scores s, x ≤ list_max (pool_scores s)) ∧
      (list_min (pool_scores s) ∈ pool_scores s ∧
        ∀ x ∈ pool_scores s, list_min (pool_scores s) ≤ x)) := by
  constructor
  · intro h
    simp [get_stats, h]
  · intro hne
    have hsc : pool_scores s ≠ [] := by
      simp [pool_scores, hne]
    refine ⟨?_, ?_, ?_, ?_, ?_, ?_, list_max_spec _ hsc, list_min_spec _ hsc⟩ <;>
      simp [get_stats, lookup_stat, hne, pool_scores, PoolState.size]

/-- Witness for `stats_fields` on the two-record pool. -/
theorem stats_fields_witness :
    pool_two.proxies ≠ [] ∧
    lookup_stat (get_stats pool_two) "total" = some ((pool_two.size : ℚ)) :=
  ⟨by decide, ((stats_fields pool_two).2 (by decide)).1⟩
